import Mathlib

/-!
Verification of `toy_diffusion_2d.py`, a toy 2-D atmospheric moisture model:
column relative humidity (CRH) evolves under convective moistening, subsidence
drying and horizontal diffusion, with stochastic placement of convective events,
optional cold-pool inhibition and diurnal modulation.

The embedding below translates the numerical routines of the source into Lean:
exact rational/real arithmetic stands in for floating point, and the linear
systems solved by `scipy.linalg.solve_circulant` are characterised relationally
(a solution is any vector satisfying the circulant equations, which is what the
FFT solver computes exactly in real arithmetic).
-/

namespace ToyDiffusion

/-! ## Event-budget bookkeeping

From `main`, the per-step computation of the number of new convective events:

    ncnv_curr = np.sum(cnv_idx)
    ncnv_new = ncnv[it] + ncnv_overflow - ncnv_curr
    ncnv_overflow = 0
    if (ncnv_new < 0):
        ncnv_overflow = ncnv_new
        ncnv_new = 0
-/

/-- The pair `(ncnv_new, ncnv_overflow)` after the budget step, given the
scheduled count `sched = ncnv[it]`, the carried `overflow`, and the currently
active count `curr = np.sum(cnv_idx)`. -/
def budgetStep (sched overflow curr : ℤ) : ℤ × ℤ :=
  let n := sched + overflow - curr
  if n < 0 then (0, n) else (n, 0)

/-! ## Ignition probability field

From `main` (the grids are `ny × nx` numpy arrays, embedded as functions
`Fin m → Fin n → ℝ`; `cnv_idx` is the integer indicator array):

    prob_crh = np.exp(pars["crh_ad"]*crh)
    prob_crh *= (1-cnv_idx)
    prob_crh /= np.mean(prob_crh)
    prob = prob_crh
    prob_cin = 1.0-cin
    if pars["cin_radius"] > 0:
        prob *= prob_cin
    prob /= np.sum(prob)
-/

variable {m n : ℕ}

/-- Sum of all entries of a grid, `np.sum`. -/
noncomputable def gridSum (f : Fin m → Fin n → ℝ) : ℝ := ∑ i, ∑ j, f i j

/-- Mean of all entries of a grid, `np.mean`. -/
noncomputable def gridMean (f : Fin m → Fin n → ℝ) : ℝ := gridSum f / (m * n)

/-- `prob_crh = np.exp(crh_ad*crh); prob_crh *= (1-cnv_idx)`: the Boltzmann
factor of CRH, masked to zero at already-active cells. -/
noncomputable def prob_crh (crh_ad : ℝ) (crh : Fin m → Fin n → ℝ) (cnv_idx : Fin m → Fin n → ℤ) :
    Fin m → Fin n → ℝ :=
  fun i j => Real.exp (crh_ad * crh i j) * (1 - (cnv_idx i j : ℝ))

/-- The field `prob` just before the final normalisation: `prob_crh` divided by
its mean, times `(1 - cin)` when cold pools are enabled (`cin_radius > 0`). -/
noncomputable def probPreNorm (cinOn : Bool) (crh_ad : ℝ) (crh : Fin m → Fin n → ℝ)
    (cnv_idx : Fin m → Fin n → ℤ) (cin : Fin m → Fin n → ℝ) : Fin m → Fin n → ℝ :=
  fun i j =>
    prob_crh crh_ad crh cnv_idx i j / gridMean (prob_crh crh_ad crh cnv_idx) *
      (if cinOn then 1 - cin i j else 1)

/-- The final ignition probability field, `prob /= np.sum(prob)`. -/
noncomputable def prob (cinOn : Bool) (crh_ad : ℝ) (crh : Fin m → Fin n → ℝ)
    (cnv_idx : Fin m → Fin n → ℤ) (cin : Fin m → Fin n → ℝ) : Fin m → Fin n → ℝ :=
  fun i j =>
    probPreNorm cinOn crh_ad crh cnv_idx cin i j /
      gridSum (probPreNorm cinOn crh_ad crh cnv_idx cin)

/-! ## Ignition and stochastic death

    coords = np.random.choice(dummy_idx, int(ncnv_new), p=prob1d, replace=False)
    new_loc = np.unravel_index(coords, (nx, ny))
    cnv_idx[new_loc] = 1
    ...
    mask = np.where(np.random.uniform(size=(ny,nx)) <= cnv_death, 0, 1)
    cnv_idx *= mask

The sampled locations are embedded as a finite set `S` of cells; weighted
sampling without replacement draws distinct cells and never draws a cell of
zero probability, which is captured by hypotheses on `S` in the theorems. -/

/-- `cnv_idx[new_loc] = 1`: mark the sampled cells active. -/
def igniteCells (cnv_idx : Fin m → Fin n → ℤ) (S : Finset (Fin m × Fin n)) :
    Fin m → Fin n → ℤ :=
  fun i j => if (i, j) ∈ S then 1 else cnv_idx i j

/-- `cnv_idx *= mask`: the stochastic death step, `mask` being the 0/1 field
`np.where(uniform <= cnv_death, 0, 1)`. -/
def deathStep (cnv_idx mask : Fin m → Fin n → ℤ) : Fin m → Fin n → ℤ :=
  fun i j => cnv_idx i j * mask i j

/-- `np.sum(cnv_idx)`: the number of active convective events. -/
def cnvCount (cnv_idx : Fin m → Fin n → ℤ) : ℤ := ∑ i, ∑ j, cnv_idx i j

/-! Concrete grids used by the witnesses: a 1 × 2 grid whose first cell is
active, uniform CRH 0, no cold pools. -/

/-- Witness CRH field: identically zero on a 1 × 2 grid. -/
noncomputable def wCrh : Fin 1 → Fin 2 → ℝ := fun _ _ => 0

/-- Witness indicator: cell (0,0) active, cell (0,1) inactive. -/
def wCnv : Fin 1 → Fin 2 → ℤ := fun _ j => if j = 0 then 1 else 0

/-- Witness cold-pool field: identically zero. -/
noncomputable def wCin : Fin 1 → Fin 2 → ℝ := fun _ _ => 0

/-! ## Convective relaxation half-step

From `main` (`dt_tau_cnv = dt/pars["tau_cnv"]`):

    crh = (pars["crh_det"]+(crh-pars["crh_det"])*np.exp(-0.5*dt_tau_cnv))*cnv_idx
          + crh*(1-cnv_idx)
-/

/-- One Strang half-step of the analytical relaxation of CRH toward `crh_det`
at active cells; inactive cells keep their value. -/
noncomputable def cnvRelaxHalf (dt tau_cnv crh_det : ℝ)
    (cnv_idx : Fin m → Fin n → ℤ) (crh : Fin m → Fin n → ℝ) : Fin m → Fin n → ℝ :=
  fun i j =>
    (crh_det + (crh i j - crh_det) * Real.exp (-(0.5 * (dt / tau_cnv)))) *
        (cnv_idx i j : ℝ) +
      crh i j * (1 - (cnv_idx i j : ℝ))

/-! ## Distance to the nearest convective updraft

From `main` (the domain is square, `nx = ny`, written `N` below):

    cnv_coords = np.argwhere(cnv_idx)
    ncnv_curr = np.sum(cnv_idx)
    if ncnv_curr > 0:
        for xoff in [0, nx, -nx]:
            for yoff in [0, -ny, ny]:
                ... j9 = stack of cnv_coords shifted by (xoff, yoff) ...
        tree = spatial.cKDTree(j9)
        cnvdst, minidx = tree.query(allidx)
        cnvdst = cnvdst.reshape([nx, ny])
        cnvdst *= dxkm
    else:
        cnvdst = np.ones([nx, ny]) * 1.e6

The k-d tree query returns, for each grid point, the exact Euclidean distance
to the nearest of the 9 periodic images of the active cells; it is embedded as
the square root of the minimal integer squared distance. -/

/-- The 9 periodic image offsets `(xoff, yoff)`, `xoff ∈ {0, nx, -nx}`,
`yoff ∈ {0, -ny, ny}`. -/
def offsets (N : ℕ) : Finset (ℤ × ℤ) :=
  ({0, (N : ℤ), -(N : ℤ)} : Finset ℤ) ×ˢ ({0, -(N : ℤ), (N : ℤ)} : Finset ℤ)

/-- Squared Euclidean distance (in grid units) from cell `p` to the periodic
image of cell `q` shifted by offset `o`. -/
def sqDistTo {N : ℕ} (p q : Fin N × Fin N) (o : ℤ × ℤ) : ℤ :=
  ((p.1 : ℤ) - ((q.1 : ℤ) + o.1)) ^ 2 + ((p.2 : ℤ) - ((q.2 : ℤ) + o.2)) ^ 2

/-- The distance-to-convection field: `dxkm` times the Euclidean distance to
the nearest periodic image of an active cell, or the sentinel `1.e6` when no
convection is active. -/
noncomputable def cnvdst {N : ℕ} (dxkm : ℝ) (active : Finset (Fin N × Fin N))
    (p : Fin N × Fin N) : ℝ :=
  if h : active.Nonempty then
    Real.sqrt (((active ×ˢ offsets N).inf'
      (h.product ⟨((0 : ℤ), (0 : ℤ)), by simp [offsets]⟩)
      fun qo => sqDistTo p qo.1 qo.2 : ℤ)) * dxkm
  else 1000000

/-! ## Alternating-direction implicit (ADI) solver

    def ADI(fld, a0, a1, a2, nx, ny, x, y, z):
        f=(1-a0)*fld+a1*np.roll(fld,1,axis=0)+a1*np.roll(fld,-1,axis=0)
        for k in range(ny):
            x[k,:]=solve_circulant(y,f[k,:])
        g=(1-a0-a2)*x+a1*np.roll(x,1,axis=1)+a1*np.roll(x,-1,axis=1)
        for j in range(nx):
            fld[:,j]=solve_circulant(z,g[:,j])
        return(fld)

`main` calls `ADI(crh, alpha, beta, omega, nx, ny, x_crh, y_crh, z_crh)` with
`beta = .5*diffK*dt/dxy**2`, `alpha = 2*beta`, `omega = dt/(2*tau_sub*86400)`,
and the circulant first columns

    y_crh[0] = 1+omega+alpha;  y_crh[1] = -beta;  y_crh[-1] = -beta
    z_crh[0] = 1+alpha;        z_crh[1] = -beta;  z_crh[-1] = -beta

The domain is square (`nx = ny`, written `N`); fields are embedded over ℚ and
`solve_circulant` relationally: a solution is any vector satisfying the
circulant linear system, which the FFT solver computes exactly in real
arithmetic. -/

/-- Entry `(i, j)` of the circulant matrix with first column `c`:
`c[(i - j) mod N]` (`scipy.linalg.circulant`). -/
def circulantEntry {N : ℕ} (c : Fin N → ℚ) (i j : Fin N) : ℚ := c (i - j)

/-- Row `i` of `circulant(c)` applied to a vector `v`. -/
def circulantMul {N : ℕ} (c v : Fin N → ℚ) (i : Fin N) : ℚ :=
  ∑ j, circulantEntry c i j * v j

/-- The first column `y_crh` of the row-sweep circulant system, as built in
`main` for `N ≥ 2` (entries `0`, `1` and `N-1` are assigned, the rest stay
zero). -/
def y_crh {N : ℕ} (omega alpha beta : ℚ) : Fin N → ℚ :=
  fun i => if i.val = 0 then 1 + omega + alpha
    else if i.val = 1 ∨ i.val = N - 1 then -beta else 0

/-- The first column `z_crh` of the column-sweep circulant system, as built in
`main` for `N ≥ 2`. -/
def z_crh {N : ℕ} (alpha beta : ℚ) : Fin N → ℚ :=
  fun i => if i.val = 0 then 1 + alpha
    else if i.val = 1 ∨ i.val = N - 1 then -beta else 0

/-- The explicit right-hand side of the first (row) sweep:
`f = (1-a0)*fld + a1*np.roll(fld,1,axis=0) + a1*np.roll(fld,-1,axis=0)`. -/
def ADI_f {N : ℕ} [NeZero N] (a0 a1 : ℚ) (fld : Fin N → Fin N → ℚ) : Fin N → Fin N → ℚ :=
  fun i j => (1 - a0) * fld i j + a1 * fld (i - 1) j + a1 * fld (i + 1) j

/-- The explicit right-hand side of the second (column) sweep:
`g = (1-a0-a2)*x + a1*np.roll(x,1,axis=1) + a1*np.roll(x,-1,axis=1)`. -/
def ADI_g {N : ℕ} [NeZero N] (a0 a1 a2 : ℚ) (x : Fin N → Fin N → ℚ) : Fin N → Fin N → ℚ :=
  fun i j => (1 - a0 - a2) * x i j + a1 * x i (j - 1) + a1 * x i (j + 1)

/-- One ADI application, relationally: `x` is the intermediate field with each
row `x[k,:]` solving `circulant(y) @ x[k,:] = f[k,:]`, and `out` is the final
field with each column `out[:,j]` solving `circulant(z) @ out[:,j] = g[:,j]`. -/
def IsADIStep {N : ℕ} [NeZero N] (a0 a1 a2 : ℚ) (y z : Fin N → ℚ)
    (fld x out : Fin N → Fin N → ℚ) : Prop :=
  (∀ k i, circulantMul y (x k) i = ADI_f a0 a1 fld k i) ∧
  (∀ j i, circulantMul z (fun r => out r j) i = ADI_g a0 a1 a2 x i j)

/-! ## Event-budget schedule smoothing

    ncnv=np.bincount(np.random.choice(times,ncnv_tot,p=pdiurn),minlength=nt)
    Nsmth=int(pars["cnv_lifetime"]/dt)
    if Nsmth>1:
        ncnv=uniform_filter1d(ncnv,size=Nsmth)

`scipy.ndimage.uniform_filter1d` is not part of this repository; it is
embedded from its documented semantics in exact arithmetic: a centred moving
average of width `size` (extending one cell further left when `size` is even)
over the input extended by symmetric reflection at both ends (the default
`mode='reflect'`). The schedule is a function `ℤ → ℚ` read on `[0, len)`. -/

/-- Fold an index into `[0, len)` by one symmetric reflection at each end
(`mode='reflect'`: `... v[1] v[0] | v[0] v[1] ... | v[len-1] v[len-2] ...`),
valid for `-len ≤ t < 2*len`. -/
def reflectIdx (len : ℕ) (t : ℤ) : ℤ :=
  if t < 0 then -1 - t else if t < (len : ℤ) then t else 2 * (len : ℤ) - 1 - t

/-- `uniform_filter1d(v, size=k, mode='reflect')` in exact arithmetic on an
array of length `len`: the mean of the `k` reflected values in the window
`[i - k/2, i - k/2 + k)`. -/
def uniformFilter1d (len k : ℕ) (v : ℤ → ℚ) : ℤ → ℚ :=
  fun i => (∑ t ∈ Finset.range k, v (reflectIdx len (i + t - (k / 2 : ℕ)))) / k

/-- The sum of the array entries (the scheduled total over all time steps). -/
def arraySum (len : ℕ) (v : ℤ → ℚ) : ℚ := ∑ i ∈ Finset.Ico (0 : ℤ) (len : ℤ), v i

/-- Sum of the reflected array over the window shifted by `o`: the building
block of the moving-average total. -/
def reflSum (len : ℕ) (v : ℤ → ℚ) (o : ℤ) : ℚ :=
  ∑ i ∈ Finset.Ico (0 : ℤ) (len : ℤ), v (reflectIdx len (i + o))

/-! Concrete 3 × 3 fields used by the ADI conservation witness: `wFld` is the
input, `wX` the intermediate sweep solution, `wOut` the final solution, for
`beta = 1/4` (so `alpha = 1/2`) and zero decay. -/

/-- ADI witness input field: rows `(6, -1, -1)`. -/
def wFld : Fin 3 → Fin 3 → ℚ := fun i _ => if i.val = 0 then 6 else -1

/-- ADI witness intermediate field: rows `(5/2, 3/4, 3/4)`. -/
def wX : Fin 3 → Fin 3 → ℚ := fun k _ => if k.val = 0 then 5/2 else 3/4

/-- ADI witness output field: rows `(2, 1, 1)`. -/
def wOut : Fin 3 → Fin 3 → ℚ := fun i _ => if i.val = 0 then 2 else 1

end ToyDiffusion

namespace ToyDiffusion

/-- C2: at every time step the number of new events equals
`schedule[step] + overflow - active_count`; when that quantity is negative the
overflow accumulator is set to it and zero events ignite, and when it is
non-negative the overflow accumulator is reset to zero. -/
theorem budgetStep_spec (sched overflow curr : ℤ) :
    (sched + overflow - curr < 0 →
      budgetStep sched overflow curr = (0, sched + overflow - curr)) ∧
    (0 ≤ sched + overflow - curr →
      budgetStep sched overflow curr = (sched + overflow - curr, 0)) := by
  constructor <;> intro h <;> simp [budgetStep, h]
  · omega

/-- Witness for C2: a concrete deficit step (schedule 3, overflow −2, 6 active
events) defers a deficit of 5, and a concrete surplus step ignites 4 events. -/
theorem budgetStep_spec_witness :
    budgetStep 3 (-2) 6 = (0, -5) ∧ budgetStep 7 (-1) 2 = (4, 0) :=
  ⟨((budgetStep_spec 3 (-2) 6).1 (by decide)).trans (by decide),
   ((budgetStep_spec 7 (-1) 2).2 (by decide)).trans (by decide)⟩

variable {m n : ℕ}

/-- Each entry of the masked Boltzmann field is non-negative when the
indicator entries are 0 or 1. -/
theorem prob_crh_nonneg (crh_ad : ℝ) (crh : Fin m → Fin n → ℝ)
    (cnv_idx : Fin m → Fin n → ℤ) (h01 : ∀ i j, cnv_idx i j = 0 ∨ cnv_idx i j = 1)
    (i : Fin m) (j : Fin n) : 0 ≤ prob_crh crh_ad crh cnv_idx i j := by
  unfold prob_crh
  rcases h01 i j with h | h <;> rw [h] <;> positivity

/-- A grid of non-negative entries has a non-negative sum. -/
theorem gridSum_nonneg {f : Fin m → Fin n → ℝ} (h : ∀ i j, 0 ≤ f i j) :
    0 ≤ gridSum f :=
  Finset.sum_nonneg fun i _ => Finset.sum_nonneg fun j _ => h i j

/-- The masked Boltzmann field vanishes at active cells. -/
theorem prob_crh_active (crh_ad : ℝ) (crh : Fin m → Fin n → ℝ)
    (cnv_idx : Fin m → Fin n → ℤ) {i : Fin m} {j : Fin n}
    (h : cnv_idx i j = 1) : prob_crh crh_ad crh cnv_idx i j = 0 := by
  simp [prob_crh, h]

/-- The pre-normalisation field vanishes at active cells. -/
theorem probPreNorm_active (cinOn : Bool) (crh_ad : ℝ) (crh : Fin m → Fin n → ℝ)
    (cnv_idx : Fin m → Fin n → ℤ) (cin : Fin m → Fin n → ℝ) {i : Fin m} {j : Fin n}
    (h : cnv_idx i j = 1) : probPreNorm cinOn crh_ad crh cnv_idx cin i j = 0 := by
  simp [probPreNorm, prob_crh_active crh_ad crh cnv_idx h]

/-- C3: the ignition probability field is proportional to
`exp(crh_ad * CRH)`, is zero at every active cell, carries the factor
`(1 - cin)` exactly when cold pools are enabled, and sums to 1 over the grid
(provided the intermediate mean and sum the code divides by are nonzero). -/
theorem prob_pdf_spec (cinOn : Bool) (crh_ad : ℝ) (crh : Fin m → Fin n → ℝ)
    (cnv_idx : Fin m → Fin n → ℤ) (cin : Fin m → Fin n → ℝ)
    (h01 : ∀ i j, cnv_idx i j = 0 ∨ cnv_idx i j = 1)
    (hcin : ∀ i j, cinOn = true → cin i j ≤ 1)
    (hM : gridMean (prob_crh crh_ad crh cnv_idx) ≠ 0)
    (hT : gridSum (probPreNorm cinOn crh_ad crh cnv_idx cin) ≠ 0) :
    gridSum (prob cinOn crh_ad crh cnv_idx cin) = 1 ∧
    (∀ i j, cnv_idx i j = 1 → prob cinOn crh_ad crh cnv_idx cin i j = 0) ∧
    ∃ c : ℝ, 0 < c ∧ ∀ i j,
      prob cinOn crh_ad crh cnv_idx cin i j =
        c * (Real.exp (crh_ad * crh i j) * (1 - (cnv_idx i j : ℝ)) *
          (if cinOn then 1 - cin i j else 1)) := by
  have hMpos : 0 < gridMean (prob_crh crh_ad crh cnv_idx) := by
    refine lt_of_le_of_ne ?_ (Ne.symm hM)
    exact div_nonneg (gridSum_nonneg (prob_crh_nonneg crh_ad crh cnv_idx h01))
      (by positivity)
  have hPre : ∀ i j, 0 ≤ probPreNorm cinOn crh_ad crh cnv_idx cin i j := by
    intro i j
    unfold probPreNorm
    refine mul_nonneg (div_nonneg (prob_crh_nonneg crh_ad crh cnv_idx h01 i j)
      hMpos.le) ?_
    cases hb : cinOn with
    | false => norm_num
    | true => simpa using sub_nonneg.mpr (hcin i j hb)
  have hTpos : 0 < gridSum (probPreNorm cinOn crh_ad crh cnv_idx cin) :=
    lt_of_le_of_ne (gridSum_nonneg hPre) (Ne.symm hT)
  refine ⟨?_, ?_, ?_⟩
  · have : gridSum (prob cinOn crh_ad crh cnv_idx cin) =
        gridSum (probPreNorm cinOn crh_ad crh cnv_idx cin) *
          (gridSum (probPreNorm cinOn crh_ad crh cnv_idx cin))⁻¹ := by
      simp only [prob, gridSum, div_eq_mul_inv, ← Finset.sum_mul]
    rw [this, mul_inv_cancel₀ hT]
  · intro i j h
    simp [prob, probPreNorm_active cinOn crh_ad crh cnv_idx cin h]
  · refine ⟨(gridMean (prob_crh crh_ad crh cnv_idx) *
        gridSum (probPreNorm cinOn crh_ad crh cnv_idx cin))⁻¹,
      inv_pos.mpr (mul_pos hMpos hTpos), ?_⟩
    intro i j
    simp only [prob, probPreNorm, prob_crh]
    rw [div_mul_eq_mul_div, div_div, ← div_eq_inv_mul]

/-- Witness for C3: on the 1 × 2 grid with one active cell, steepness 0 and no
cold pools, the hypotheses hold and the conclusion follows by applying the
theorem. -/
theorem prob_pdf_spec_witness :
    gridSum (prob false 0 wCrh wCnv wCin) = 1 ∧
    (∀ i j, wCnv i j = 1 → prob false 0 wCrh wCnv wCin i j = 0) ∧
    ∃ c : ℝ, 0 < c ∧ ∀ i j,
      prob false 0 wCrh wCnv wCin i j =
        c * (Real.exp (0 * wCrh i j) * (1 - (wCnv i j : ℝ)) *
          (if false then 1 - wCin i j else 1)) :=
  prob_pdf_spec false 0 wCrh wCnv wCin
    (by intro i j; fin_cases j <;> simp [wCnv])
    (by intro i j h; simp at h)
    (by simp [gridMean, gridSum, prob_crh, wCrh, wCnv, Fin.sum_univ_two]; norm_num)
    (by simp [gridSum, probPreNorm, gridMean, prob_crh, wCrh, wCnv, wCin,
          Fin.sum_univ_two]; norm_num)

/-- C4: the code has no guard for a zero probability sum.  On a grid whose
cells are all already active the masked field is identically zero, so the code
divides `prob` by `np.sum(prob) = 0`; in the embedding (total division) the
resulting field sums to 0, not 1, so it is not a probability distribution, and
in numpy the NaN probabilities make `np.random.choice` raise `ValueError`
instead of the step completing normally. -/
theorem prob_allActive_degenerate :
    gridSum (probPreNorm false 14.72 (fun _ _ => (0.8 : ℝ))
        (fun _ _ => (1 : ℤ)) (fun _ _ => (0 : ℝ)) : Fin 1 → Fin 1 → ℝ) = 0 ∧
    gridSum (prob false 14.72 (fun _ _ => (0.8 : ℝ))
        (fun _ _ => (1 : ℤ)) (fun _ _ => (0 : ℝ)) : Fin 1 → Fin 1 → ℝ) ≠ 1 := by
  constructor
  · simp [gridSum, probPreNorm, prob_crh]
  · simp [gridSum, prob, probPreNorm, prob_crh]

/-- C10: sampled cells carry nonzero probability, hence were inactive; after
ignition the indicator is still 0/1-valued and the active count grows by
exactly the number of sampled cells; the death step only maps entries 1 → 0,
keeping the indicator 0/1-valued. -/
theorem indicator_invariant (cinOn : Bool) (crh_ad : ℝ) (crh : Fin m → Fin n → ℝ)
    (cnv_idx : Fin m → Fin n → ℤ) (cin : Fin m → Fin n → ℝ)
    (S : Finset (Fin m × Fin n)) (mask : Fin m → Fin n → ℤ)
    (h01 : ∀ i j, cnv_idx i j = 0 ∨ cnv_idx i j = 1)
    (hmask : ∀ i j, mask i j = 0 ∨ mask i j = 1)
    (hS : ∀ p ∈ S, prob cinOn crh_ad crh cnv_idx cin p.1 p.2 ≠ 0) :
    (∀ p ∈ S, cnv_idx p.1 p.2 = 0) ∧
    (∀ i j, igniteCells cnv_idx S i j = 0 ∨ igniteCells cnv_idx S i j = 1) ∧
    cnvCount (igniteCells cnv_idx S) = cnvCount cnv_idx + S.card ∧
    (∀ i j, deathStep (igniteCells cnv_idx S) mask i j = 0 ∨
      deathStep (igniteCells cnv_idx S) mask i j = 1) ∧
    (∀ i j, deathStep (igniteCells cnv_idx S) mask i j ≤
      igniteCells cnv_idx S i j) := by
  have hinactive : ∀ p ∈ S, cnv_idx p.1 p.2 = 0 := by
    intro p hp
    rcases h01 p.1 p.2 with h | h
    · exact h
    · exact absurd (by simp [prob, probPreNorm_active cinOn crh_ad crh cnv_idx cin h])
        (hS p hp)
  have hig01 : ∀ i j, igniteCells cnv_idx S i j = 0 ∨ igniteCells cnv_idx S i j = 1 := by
    intro i j
    unfold igniteCells
    split
    · right; rfl
    · exact h01 i j
  refine ⟨hinactive, hig01, ?_, ?_, ?_⟩
  · have hpt : ∀ p : Fin m × Fin n, igniteCells cnv_idx S p.1 p.2 =
        cnv_idx p.1 p.2 + (if p ∈ S then 1 else 0) := by
      intro p
      unfold igniteCells
      by_cases hp : p ∈ S
      · simp [hp, hinactive p hp]
      · simp [hp]
    have hcard : ∑ p : Fin m × Fin n, (if p ∈ S then (1 : ℤ) else 0) = S.card := by
      rw [Finset.sum_ite_mem, Finset.univ_inter, Finset.sum_const, nsmul_eq_mul,
        mul_one]
    have hcnt : ∀ f : Fin m → Fin n → ℤ, cnvCount f = ∑ p : Fin m × Fin n, f p.1 p.2 := by
      intro f
      rw [cnvCount, ← Finset.univ_product_univ, Finset.sum_product]
    rw [hcnt, hcnt]
    calc ∑ p : Fin m × Fin n, igniteCells cnv_idx S p.1 p.2
        = ∑ p : Fin m × Fin n, (cnv_idx p.1 p.2 + (if p ∈ S then 1 else 0)) := by
          exact Finset.sum_congr rfl fun p _ => hpt p
      _ = ∑ p : Fin m × Fin n, cnv_idx p.1 p.2 + S.card := by
          rw [Finset.sum_add_distrib, hcard]
  · intro i j
    rcases hig01 i j with h | h <;> rcases hmask i j with h2 | h2 <;>
      simp [deathStep, h, h2]
  · intro i j
    rcases hig01 i j with h | h <;> rcases hmask i j with h2 | h2 <;>
      simp [deathStep, h, h2]

/-- Witness for C10: on the 1 × 2 grid with cell (0,0) active, igniting the
singleton set containing cell (0,1) (which has probability 1) and applying an
all-ones survival mask. -/
theorem indicator_invariant_witness :
    (∀ p ∈ ({((0 : Fin 1), (1 : Fin 2))} : Finset (Fin 1 × Fin 2)),
      wCnv p.1 p.2 = 0) ∧
    (∀ i j, igniteCells wCnv {((0 : Fin 1), (1 : Fin 2))} i j = 0 ∨
      igniteCells wCnv {((0 : Fin 1), (1 : Fin 2))} i j = 1) ∧
    cnvCount (igniteCells wCnv {((0 : Fin 1), (1 : Fin 2))}) =
      cnvCount wCnv + ({((0 : Fin 1), (1 : Fin 2))} : Finset (Fin 1 × Fin 2)).card ∧
    (∀ i j, deathStep (igniteCells wCnv {((0 : Fin 1), (1 : Fin 2))}) (fun _ _ => 1) i j = 0 ∨
      deathStep (igniteCells wCnv {((0 : Fin 1), (1 : Fin 2))}) (fun _ _ => 1) i j = 1) ∧
    (∀ i j, deathStep (igniteCells wCnv {((0 : Fin 1), (1 : Fin 2))}) (fun _ _ => 1) i j ≤
      igniteCells wCnv {((0 : Fin 1), (1 : Fin 2))} i j) :=
  indicator_invariant false 0 wCrh wCnv wCin {((0 : Fin 1), (1 : Fin 2))}
    (fun _ _ => 1)
    (by intro i j; fin_cases j <;> simp [wCnv])
    (by intro i j; right; rfl)
    (by
      intro p hp
      simp only [Finset.mem_singleton] at hp
      subst hp
      simp [prob, probPreNorm, prob_crh, gridMean, gridSum, wCrh, wCnv, wCin,
        Fin.sum_univ_two]
      norm_num)

/-- C6: with positive `dt` and `tau_cnv`, one relaxation half-step keeps each
active cell between its prior CRH value and `crh_det`, reaches `crh_det` only
if the cell already sat there, and leaves every inactive cell unchanged. -/
theorem cnvRelaxHalf_monotone (dt tau_cnv crh_det : ℝ)
    (cnv_idx : Fin m → Fin n → ℤ) (crh : Fin m → Fin n → ℝ)
    (hdt : 0 < dt) (htau : 0 < tau_cnv) :
    ∀ i j,
      (cnv_idx i j = 1 →
        min (crh i j) crh_det ≤ cnvRelaxHalf dt tau_cnv crh_det cnv_idx crh i j ∧
        cnvRelaxHalf dt tau_cnv crh_det cnv_idx crh i j ≤ max (crh i j) crh_det ∧
        (cnvRelaxHalf dt tau_cnv crh_det cnv_idx crh i j = crh_det →
          crh i j = crh_det)) ∧
      (cnv_idx i j = 0 →
        cnvRelaxHalf dt tau_cnv crh_det cnv_idx crh i j = crh i j) := by
  have he0 : 0 < Real.exp (-(0.5 * (dt / tau_cnv))) := Real.exp_pos _
  have he1 : Real.exp (-(0.5 * (dt / tau_cnv))) < 1 := by
    rw [Real.exp_lt_one_iff]
    have : 0 < dt / tau_cnv := div_pos hdt htau
    nlinarith
  intro i j
  constructor
  · intro h
    have hval : cnvRelaxHalf dt tau_cnv crh_det cnv_idx crh i j =
        crh_det + (crh i j - crh_det) * Real.exp (-(0.5 * (dt / tau_cnv))) := by
      simp [cnvRelaxHalf, h]
    rw [hval]
    set e := Real.exp (-(0.5 * (dt / tau_cnv))) with he
    refine ⟨?_, ?_, ?_⟩
    · rcases le_total (crh i j) crh_det with hc | hc
      · rw [min_eq_left hc]; nlinarith
      · rw [min_eq_right hc]; nlinarith
    · rcases le_total (crh i j) crh_det with hc | hc
      · rw [max_eq_right hc]; nlinarith
      · rw [max_eq_left hc]; nlinarith
    · intro heq
      have : (crh i j - crh_det) * e = 0 := by linarith
      rcases mul_eq_zero.mp this with h0 | h0
      · linarith
      · exact absurd h0 (ne_of_gt he0)
  · intro h
    simp [cnvRelaxHalf, h]

/-- Witness for C6: `dt = 30`, `tau_cnv = 60`, `crh_det = 21/20` on a 1 × 1
all-active grid with CRH 4/5. -/
theorem cnvRelaxHalf_monotone_witness :
    ((fun (_ : Fin 1) (_ : Fin 1) => (1 : ℤ)) 0 0 = 1 →
      min ((fun (_ : Fin 1) (_ : Fin 1) => (4/5 : ℝ)) 0 0) (21/20) ≤
        cnvRelaxHalf 30 60 (21/20) (fun _ _ => 1) (fun (_ : Fin 1) (_ : Fin 1) => (4/5 : ℝ)) 0 0 ∧
      cnvRelaxHalf 30 60 (21/20) (fun _ _ => 1) (fun (_ : Fin 1) (_ : Fin 1) => (4/5 : ℝ)) 0 0 ≤
        max ((fun (_ : Fin 1) (_ : Fin 1) => (4/5 : ℝ)) 0 0) (21/20) ∧
      (cnvRelaxHalf 30 60 (21/20) (fun _ _ => 1) (fun (_ : Fin 1) (_ : Fin 1) => (4/5 : ℝ)) 0 0 = 21/20 →
        (fun (_ : Fin 1) (_ : Fin 1) => (4/5 : ℝ)) 0 0 = 21/20)) ∧
    ((fun (_ : Fin 1) (_ : Fin 1) => (1 : ℤ)) 0 0 = 0 →
      cnvRelaxHalf 30 60 (21/20) (fun _ _ => 1) (fun (_ : Fin 1) (_ : Fin 1) => (4/5 : ℝ)) 0 0 =
        (fun (_ : Fin 1) (_ : Fin 1) => (4/5 : ℝ)) 0 0) :=
  cnvRelaxHalf_monotone 30 60 (21/20) (fun _ _ => 1) (fun (_ : Fin 1) (_ : Fin 1) => (4/5 : ℝ))
    (by norm_num) (by norm_num) 0 0

/-- Squared distances are non-negative. -/
theorem sqDistTo_nonneg {N : ℕ} (p q : Fin N × Fin N) (o : ℤ × ℤ) :
    0 ≤ sqDistTo p q o := by
  unfold sqDistTo
  positivity

/-- The components of a periodic image offset. -/
theorem mem_offsets {N : ℕ} {o : ℤ × ℤ} (h : o ∈ offsets N) :
    (o.1 = 0 ∨ o.1 = N ∨ o.1 = -(N : ℤ)) ∧ (o.2 = 0 ∨ o.2 = N ∨ o.2 = -(N : ℤ)) := by
  simp only [offsets, Finset.mem_product, Finset.mem_insert,
    Finset.mem_singleton] at h
  tauto

/-- A cell coincides with a periodic image of another cell only if the two
cells coincide and the offset is trivial. -/
theorem eq_of_image_eq {N : ℕ} (a b : Fin N) (o : ℤ)
    (ho : o = 0 ∨ o = N ∨ o = -(N : ℤ)) (h : (a : ℤ) = (b : ℤ) + o) : a = b := by
  have ha : (a : ℕ) < N := a.isLt
  have hb : (b : ℕ) < N := b.isLt
  have h2 : ((a : ℕ) : ℤ) = ((b : ℕ) : ℤ) + o := h
  apply Fin.ext
  rcases ho with h0 | h0 | h0 <;> omega

/-- Distinct cells lie at squared distance at least 1 from every periodic
image. -/
theorem one_le_sqDistTo {N : ℕ} {p q : Fin N × Fin N} (hpq : p ≠ q) {o : ℤ × ℤ}
    (ho : o ∈ offsets N) : 1 ≤ sqDistTo p q o := by
  have h0 := sqDistTo_nonneg p q o
  rcases eq_or_ne (sqDistTo p q o) 0 with hz | hz
  · exfalso
    unfold sqDistTo at hz
    have h1 : ((p.1 : ℤ) - ((q.1 : ℤ) + o.1)) ^ 2 = 0 := by
      nlinarith [sq_nonneg ((p.1 : ℤ) - ((q.1 : ℤ) + o.1)),
        sq_nonneg ((p.2 : ℤ) - ((q.2 : ℤ) + o.2))]
    have h2 : ((p.2 : ℤ) - ((q.2 : ℤ) + o.2)) ^ 2 = 0 := by
      nlinarith [sq_nonneg ((p.1 : ℤ) - ((q.1 : ℤ) + o.1)),
        sq_nonneg ((p.2 : ℤ) - ((q.2 : ℤ) + o.2))]
    have e1 : (p.1 : ℤ) = (q.1 : ℤ) + o.1 := by
      have := pow_eq_zero_iff (n := 2) (by norm_num) |>.mp h1
      linarith
    have e2 : (p.2 : ℤ) = (q.2 : ℤ) + o.2 := by
      have := pow_eq_zero_iff (n := 2) (by norm_num) |>.mp h2
      linarith
    obtain ⟨ho1, ho2⟩ := mem_offsets ho
    exact hpq (Prod.ext (eq_of_image_eq _ _ _ ho1 e1) (eq_of_image_eq _ _ _ ho2 e2))
  · omega

/-- At an active cell the minimal squared distance over all periodic images
is zero. -/
theorem minSq_eq_zero_of_mem {N : ℕ} (p : Fin N × Fin N)
    (active : Finset (Fin N × Fin N)) (H : (active ×ˢ offsets N).Nonempty)
    (hp : p ∈ active) :
    (active ×ˢ offsets N).inf' H (fun qo => sqDistTo p qo.1 qo.2) = 0 := by
  have hmem : (p, ((0 : ℤ), (0 : ℤ))) ∈ active ×ˢ offsets N :=
    Finset.mem_product.mpr ⟨hp, by simp [offsets]⟩
  have hle : (active ×ˢ offsets N).inf' H (fun qo => sqDistTo p qo.1 qo.2) ≤
      sqDistTo p p ((0 : ℤ), (0 : ℤ)) :=
    Finset.inf'_le _ hmem
  have hz : sqDistTo p p ((0 : ℤ), (0 : ℤ)) = 0 := by simp [sqDistTo]
  have hge : 0 ≤ (active ×ˢ offsets N).inf' H (fun qo => sqDistTo p qo.1 qo.2) :=
    Finset.le_inf' _ _ fun qo _ => sqDistTo_nonneg p qo.1 qo.2
  omega

/-- At an inactive cell the minimal squared distance over all periodic images
is at least 1. -/
theorem one_le_minSq {N : ℕ} (p : Fin N × Fin N)
    (active : Finset (Fin N × Fin N)) (H : (active ×ˢ offsets N).Nonempty)
    (hp : p ∉ active) :
    1 ≤ (active ×ˢ offsets N).inf' H (fun qo => sqDistTo p qo.1 qo.2) := by
  refine Finset.le_inf' _ _ fun qo hqo => ?_
  obtain ⟨hq, ho⟩ := Finset.mem_product.mp hqo
  exact one_le_sqDistTo (by rintro rfl; exact hp hq) ho

/-- C7: the distance field vanishes exactly at active cells, is at least the
grid spacing `dxkm` at inactive cells when convection is present, and is the
sentinel `1.e6` everywhere when no convection is active. -/
theorem cnvdst_spec {N : ℕ} (dxkm : ℝ) (hd : 0 ≤ dxkm)
    (active : Finset (Fin N × Fin N)) :
    (∀ p ∈ active, cnvdst dxkm active p = 0) ∧
    (active.Nonempty → ∀ p ∉ active, dxkm ≤ cnvdst dxkm active p) ∧
    (active = ∅ → ∀ p, cnvdst dxkm active p = 1000000) := by
  refine ⟨?_, ?_, ?_⟩
  · intro p hp
    have hne : active.Nonempty := ⟨p, hp⟩
    rw [cnvdst, dif_pos hne, minSq_eq_zero_of_mem p active _ hp]
    simp
  · intro hne p hp
    rw [cnvdst, dif_pos hne]
    have h1 := one_le_minSq p active
      (hne.product ⟨((0 : ℤ), (0 : ℤ)), by simp [offsets]⟩) hp
    have h1R : (1 : ℝ) ≤ (((active ×ˢ offsets N).inf'
        (hne.product ⟨((0 : ℤ), (0 : ℤ)), by simp [offsets]⟩)
        (fun qo => sqDistTo p qo.1 qo.2) : ℤ) : ℝ) := by exact_mod_cast h1
    have hs := Real.sqrt_le_sqrt h1R
    rw [Real.sqrt_one] at hs
    nlinarith
  · intro h p
    rw [cnvdst, dif_neg (by simp [h])]

/-- Witness for C7: one active cell at the origin of a 3 × 3 grid with 2 km
spacing. -/
theorem cnvdst_spec_witness :
    (∀ p ∈ ({((0 : Fin 3), (0 : Fin 3))} : Finset (Fin 3 × Fin 3)),
      cnvdst 2 {((0 : Fin 3), (0 : Fin 3))} p = 0) ∧
    (({((0 : Fin 3), (0 : Fin 3))} : Finset (Fin 3 × Fin 3)).Nonempty →
      ∀ p ∉ ({((0 : Fin 3), (0 : Fin 3))} : Finset (Fin 3 × Fin 3)),
        (2 : ℝ) ≤ cnvdst 2 {((0 : Fin 3), (0 : Fin 3))} p) ∧
    (({((0 : Fin 3), (0 : Fin 3))} : Finset (Fin 3 × Fin 3)) = ∅ →
      ∀ p, cnvdst 2 {((0 : Fin 3), (0 : Fin 3))} p = 1000000) :=
  cnvdst_spec 2 (by norm_num) {((0 : Fin 3), (0 : Fin 3))}

/-- Each coordinate contribution at the far corner of the grid is at least 1,
whichever periodic image is taken. -/
theorem one_le_corner_sq (n : ℕ) (o : ℤ)
    (ho : o = 0 ∨ o = ((n : ℤ) + 2) ∨ o = -((n : ℤ) + 2)) :
    1 ≤ ((n : ℤ) + 1 - o) ^ 2 := by
  have hn : (0 : ℤ) ≤ (n : ℤ) := Int.natCast_nonneg n
  rcases ho with h0 | h0 | h0 <;> subst h0 <;> nlinarith

/-- With the single active cell `(0,0)`, the minimal squared distance at the
opposite corner `(N-1, N-1)` is 2 (attained at the periodic image `(N, N)`). -/
theorem minSq_corner (n : ℕ)
    (H : (({((0 : Fin (n + 2)), (0 : Fin (n + 2)))} : Finset (Fin (n + 2) × Fin (n + 2))) ×ˢ
      offsets (n + 2)).Nonempty) :
    (({((0 : Fin (n + 2)), (0 : Fin (n + 2)))} : Finset (Fin (n + 2) × Fin (n + 2))) ×ˢ
        offsets (n + 2)).inf' H
      (fun qo => sqDistTo (Fin.last (n + 1), Fin.last (n + 1)) qo.1 qo.2) = 2 := by
  apply le_antisymm
  · have hmem : (((0 : Fin (n + 2)), (0 : Fin (n + 2))),
        (((n : ℤ) + 2), ((n : ℤ) + 2))) ∈
        ({((0 : Fin (n + 2)), (0 : Fin (n + 2)))} : Finset (Fin (n + 2) × Fin (n + 2))) ×ˢ
          offsets (n + 2) := by
      refine Finset.mem_product.mpr ⟨Finset.mem_singleton_self _, ?_⟩
      simp [offsets]
    refine le_trans (Finset.inf'_le _ hmem) (le_of_eq ?_)
    simp only [sqDistTo, Fin.val_last, Fin.val_zero]
    push_cast
    ring
  · refine Finset.le_inf' _ _ fun qo hqo => ?_
    obtain ⟨q, o⟩ := qo
    obtain ⟨hq, ho⟩ := Finset.mem_product.mp hqo
    rw [Finset.mem_singleton] at hq
    obtain ⟨ho1, ho2⟩ := mem_offsets ho
    subst hq
    simp only [sqDistTo, Fin.val_last, Fin.val_zero]
    have h1 : 1 ≤ ((n : ℤ) + 1 - o.1) ^ 2 := by
      apply one_le_corner_sq
      push_cast at ho1 ⊢
      tauto
    have h2 : 1 ≤ ((n : ℤ) + 1 - o.2) ^ 2 := by
      apply one_le_corner_sq
      push_cast at ho2 ⊢
      tauto
    push_cast
    nlinarith

/-- With the single active cell `(0,0)`, the minimal squared distance at cell
`(0, j)` is the square of `min(j, N-j)`: the distance field falls off toward
the direct cell and toward its periodic image alike. -/
theorem minSq_row (n : ℕ) (j : Fin (n + 2))
    (H : (({((0 : Fin (n + 2)), (0 : Fin (n + 2)))} : Finset (Fin (n + 2) × Fin (n + 2))) ×ˢ
      offsets (n + 2)).Nonempty) :
    (({((0 : Fin (n + 2)), (0 : Fin (n + 2)))} : Finset (Fin (n + 2) × Fin (n + 2))) ×ˢ
        offsets (n + 2)).inf' H
      (fun qo => sqDistTo ((0 : Fin (n + 2)), j) qo.1 qo.2) =
      (min ((j : ℤ)) (((n : ℤ) + 2) - (j : ℤ))) ^ 2 := by
  have hj0 : (0 : ℤ) ≤ (j : ℤ) := Int.natCast_nonneg _
  have hjn : (j : ℤ) ≤ (n : ℤ) + 1 := by
    have := j.isLt
    omega
  apply le_antisymm
  · rcases le_total ((j : ℤ)) (((n : ℤ) + 2) - (j : ℤ)) with hc | hc
    · have hmem : (((0 : Fin (n + 2)), (0 : Fin (n + 2))), ((0 : ℤ), (0 : ℤ))) ∈
          ({((0 : Fin (n + 2)), (0 : Fin (n + 2)))} : Finset (Fin (n + 2) × Fin (n + 2))) ×ˢ
            offsets (n + 2) := by
        refine Finset.mem_product.mpr ⟨Finset.mem_singleton_self _, ?_⟩
        simp [offsets]
      refine le_trans (Finset.inf'_le _ hmem) ?_
      rw [min_eq_left hc]
      simp [sqDistTo]
    · have hmem : (((0 : Fin (n + 2)), (0 : Fin (n + 2))), ((0 : ℤ), ((n : ℤ) + 2))) ∈
          ({((0 : Fin (n + 2)), (0 : Fin (n + 2)))} : Finset (Fin (n + 2) × Fin (n + 2))) ×ˢ
            offsets (n + 2) := by
        refine Finset.mem_product.mpr ⟨Finset.mem_singleton_self _, ?_⟩
        simp [offsets]
      refine le_trans (Finset.inf'_le _ hmem) (le_of_eq ?_)
      rw [min_eq_right hc]
      simp only [sqDistTo, Fin.val_zero]
      push_cast
      ring
  · refine Finset.le_inf' _ _ fun qo hqo => ?_
    obtain ⟨q, o⟩ := qo
    obtain ⟨hq, ho⟩ := Finset.mem_product.mp hqo
    rw [Finset.mem_singleton] at hq
    obtain ⟨ho1, ho2⟩ := mem_offsets ho
    subst hq
    simp only [sqDistTo, Fin.val_zero]
    have hM0 : (0 : ℤ) ≤ min ((j : ℤ)) (((n : ℤ) + 2) - (j : ℤ)) := by
      apply le_min hj0
      omega
    have hMj : min ((j : ℤ)) (((n : ℤ) + 2) - (j : ℤ)) ≤ (j : ℤ) := min_le_left _ _
    have hMn : min ((j : ℤ)) (((n : ℤ) + 2) - (j : ℤ)) ≤ ((n : ℤ) + 2) - (j : ℤ) :=
      min_le_right _ _
    have hsq : (min ((j : ℤ)) (((n : ℤ) + 2) - (j : ℤ))) ^ 2 ≤ ((j : ℤ) - o.2) ^ 2 := by
      rcases ho2 with h0 | h0 | h0 <;> rw [h0] <;> push_cast <;> nlinarith
    have ho1sq : (0 : ℤ) ≤ ((0 : ℤ) - o.1) ^ 2 := sq_nonneg _
    push_cast at hsq ⊢
    nlinarith

/-- C8 as stated is false: on a 4 × 4 grid with unit spacing and one active
cell at `(0,0)`, the distance at the opposite corner `(3,3)` is `√2` (the
nearest periodic image sits at `(4,4)`), not `spacing × (grid size / 2) = 2`. -/
theorem cnvdst_corner_claim_false :
    cnvdst 1 {((0 : Fin 4), (0 : Fin 4))} ((3 : Fin 4), (3 : Fin 4)) ≠ 1 * ((4 : ℝ) / 2) := by
  have hcorner : ((3 : Fin 4), (3 : Fin 4)) = ((Fin.last 3 : Fin 4), (Fin.last 3 : Fin 4)) := by
    decide
  have hne : ({((0 : Fin 4), (0 : Fin 4))} : Finset (Fin 4 × Fin 4)).Nonempty :=
    Finset.singleton_nonempty _
  rw [hcorner, cnvdst, dif_pos hne, minSq_corner 2]
  intro h
  have h2 : Real.sqrt 2 = 2 := by
    push_cast at h
    nlinarith
  have h4 : (Real.sqrt 2) ^ 2 = 2 := Real.sq_sqrt (by norm_num)
  rw [h2] at h4
  norm_num at h4

/-- C8 (amended): with a single active cell at the corner `(0,0)`, the
distance at the opposite corner `(N-1, N-1)` equals spacing × √2 — the
nearest of the periodic images, not the naive corner-to-corner value — and
along the first row the distance at `(0, j)` is spacing × min(j, N−j),
falling off toward the direct cell and its periodic image alike. -/
theorem cnvdst_singleCorner_spec (n : ℕ) (dxkm : ℝ) :
    cnvdst dxkm {((0 : Fin (n + 2)), (0 : Fin (n + 2)))}
        (Fin.last (n + 1), Fin.last (n + 1)) = Real.sqrt 2 * dxkm ∧
    ∀ j : Fin (n + 2),
      cnvdst dxkm {((0 : Fin (n + 2)), (0 : Fin (n + 2)))} ((0 : Fin (n + 2)), j) =
        min ((j : ℝ)) (((n : ℝ) + 2) - (j : ℝ)) * dxkm := by
  have hne : ({((0 : Fin (n + 2)), (0 : Fin (n + 2)))} :
      Finset (Fin (n + 2) × Fin (n + 2))).Nonempty := Finset.singleton_nonempty _
  constructor
  · rw [cnvdst, dif_pos hne, minSq_corner n]
    norm_num
  · intro j
    rw [cnvdst, dif_pos hne, minSq_row n j]
    have hM0 : (0 : ℤ) ≤ min ((j : ℤ)) (((n : ℤ) + 2) - (j : ℤ)) := by
      refine le_min (Int.natCast_nonneg _) ?_
      have := j.isLt
      omega
    have hcast : ((((min ((j : ℤ)) (((n : ℤ) + 2) - (j : ℤ))) ^ 2 : ℤ)) : ℝ) =
        (min ((j : ℝ)) (((n : ℝ) + 2) - (j : ℝ))) ^ 2 := by
      push_cast
      rfl
    rw [hcast, Real.sqrt_sq]
    exact_mod_cast hM0

/-- Witness for C8: the 2 × 2 grid with 2 km spacing. -/
theorem cnvdst_singleCorner_spec_witness :
    cnvdst 2 {((0 : Fin (0 + 2)), (0 : Fin (0 + 2)))}
        (Fin.last (0 + 1), Fin.last (0 + 1)) = Real.sqrt 2 * 2 ∧
    ∀ j : Fin (0 + 2),
      cnvdst 2 {((0 : Fin (0 + 2)), (0 : Fin (0 + 2)))} ((0 : Fin (0 + 2)), j) =
        min ((j : ℝ)) ((((0 : ℕ) : ℝ) + 2) - (j : ℝ)) * 2 :=
  cnvdst_singleCorner_spec 0 2

/-- C1 as stated is false: `ADI` is called with `a0 = alpha`, `a1 = beta`,
`a2 = omega`, and for the default parameters (`beta = 3/80`, `alpha = 3/40`,
`omega = 1/92160`, `N = 151`) the diagonal of the row-sweep circulant system
is `1 + omega + alpha`, not `1 - a0 - a2`; the expression `(1 - a0 - a2)`
appears only in the explicit right-hand side `g` of the second sweep. -/
theorem ADI_coeff_claim_false :
    ¬ (∀ i : Fin 151,
        circulantEntry (y_crh (1/92160) (3/40) (3/80)) i i =
          1 - (3/40) - (1/92160 : ℚ) ∧
        circulantEntry (z_crh (3/40) (3/80)) i i = 1 - (3/40) - (1/92160 : ℚ) ∧
        circulantEntry (y_crh (1/92160) (3/40) (3/80)) i (i - 1) = -(3/80) ∧
        circulantEntry (z_crh (3/40) (3/80)) i (i - 1) = -(3/80)) := by
  intro h
  have h0 := (h 0).1
  rw [circulantEntry, sub_self] at h0
  norm_num [y_crh] at h0

/-- C1 (amended): the circulant system solved per row has diagonal
`1 + a2 + a0` and the one solved per column has diagonal `1 + a0`, both with
`-a1` on the immediate off-diagonals (with periodic wrap), where
`a0 = alpha`, `a1 = beta`, `a2 = omega` are the arguments `main` passes to
`ADI`. -/
theorem ADI_matrix_spec (n : ℕ) (omega alpha beta : ℚ) :
    ∀ i : Fin (n + 3),
      circulantEntry (y_crh omega alpha beta) i i = 1 + omega + alpha ∧
      circulantEntry (z_crh alpha beta) i i = 1 + alpha ∧
      circulantEntry (y_crh omega alpha beta) i (i - 1) = -beta ∧
      circulantEntry (y_crh omega alpha beta) i (i + 1) = -beta ∧
      circulantEntry (z_crh alpha beta) i (i - 1) = -beta ∧
      circulantEntry (z_crh alpha beta) i (i + 1) = -beta := by
  intro i
  have hsub : i - (i - 1) = (1 : Fin (n + 3)) := sub_sub_cancel i 1
  have hadd : i - (i + 1) = (-1 : Fin (n + 3)) := by ring
  have hv0 : ((0 : Fin (n + 3)) : ℕ) = 0 := rfl
  have hv1 : ((1 : Fin (n + 3)) : ℕ) = 1 := rfl
  have hvm : ((-1 : Fin (n + 3)) : ℕ) = n + 2 := Fin.coe_neg_one
  have hy0 : y_crh (N := n + 3) omega alpha beta 0 = 1 + omega + alpha := by
    unfold y_crh
    rw [hv0, if_pos rfl]
  have hz0 : z_crh (N := n + 3) alpha beta 0 = 1 + alpha := by
    unfold z_crh
    rw [hv0, if_pos rfl]
  have hy1 : y_crh (N := n + 3) omega alpha beta 1 = -beta := by
    unfold y_crh
    rw [hv1, if_neg (by omega), if_pos (by omega)]
  have hz1 : z_crh (N := n + 3) alpha beta 1 = -beta := by
    unfold z_crh
    rw [hv1, if_neg (by omega), if_pos (by omega)]
  have hym : y_crh (N := n + 3) omega alpha beta (-1) = -beta := by
    unfold y_crh
    rw [hvm, if_neg (by omega), if_pos (by omega)]
  have hzm : z_crh (N := n + 3) alpha beta (-1) = -beta := by
    unfold z_crh
    rw [hvm, if_neg (by omega), if_pos (by omega)]
  refine ⟨?_, ?_, ?_, ?_, ?_, ?_⟩
  · rw [circulantEntry, sub_self, hy0]
  · rw [circulantEntry, sub_self, hz0]
  · rw [circulantEntry, hsub, hy1]
  · rw [circulantEntry, hadd, hym]
  · rw [circulantEntry, hsub, hz1]
  · rw [circulantEntry, hadd, hzm]

/-- A circulant matrix-vector product sums to (sum of the first column) times
(sum of the vector). -/
theorem sum_circulantMul {N : ℕ} [NeZero N] (c v : Fin N → ℚ) :
    ∑ i, circulantMul c v i = (∑ i, c i) * ∑ j, v j := by
  unfold circulantMul circulantEntry
  rw [Finset.sum_comm]
  have key : ∀ j : Fin N, (∑ i, c (i - j)) = ∑ i, c i := fun j =>
    Fintype.sum_equiv (Equiv.subRight j) _ _ fun i => rfl
  calc ∑ j, ∑ i, c (i - j) * v j = ∑ j, (∑ i, c (i - j)) * v j := by
        refine Finset.sum_congr rfl fun j _ => ?_
        rw [← Finset.sum_mul]
    _ = ∑ j, (∑ i, c i) * v j := by
        refine Finset.sum_congr rfl fun j _ => ?_
        rw [key j]
    _ = (∑ i, c i) * ∑ j, v j := by rw [← Finset.mul_sum]

/-- Cyclic shifts do not change a sum over `Fin N`. -/
theorem sum_shift_sub {N : ℕ} [NeZero N] (v : Fin N → ℚ) (t : Fin N) :
    ∑ i, v (i - t) = ∑ i, v i :=
  Fintype.sum_equiv (Equiv.subRight t) _ _ fun _ => rfl

/-- Cyclic shifts do not change a sum over `Fin N`. -/
theorem sum_shift_add {N : ℕ} [NeZero N] (v : Fin N → ℚ) (t : Fin N) :
    ∑ i, v (i + t) = ∑ i, v i :=
  Fintype.sum_equiv (Equiv.addRight t) _ _ fun _ => rfl

/-- The sum of the first column `y_crh`. -/
theorem sum_y_crh (n : ℕ) (omega alpha beta : ℚ) :
    ∑ i : Fin (n + 3), y_crh omega alpha beta i = 1 + omega + alpha - 2 * beta := by
  have hpt : ∀ k : ℕ,
      (if k = 0 then 1 + omega + alpha else if k = 1 ∨ k = (n + 3) - 1 then -beta else 0) =
        (if k = 0 then 1 + omega + alpha else 0) + (if k = 1 then -beta else 0) +
          (if k = n + 2 then -beta else 0) := by
    intro k
    by_cases h0 : k = 0
    · subst h0
      rw [if_pos rfl, if_pos rfl, if_neg (by omega), if_neg (by omega)]
      ring
    · by_cases h1 : k = 1
      · subst h1
        rw [if_neg h0, if_pos (by omega), if_neg h0, if_pos rfl, if_neg (by omega)]
        ring
      · by_cases hL : k = n + 2
        · subst hL
          rw [if_neg h0, if_pos (by omega), if_neg h0, if_neg (by omega), if_pos rfl]
          ring
        · rw [if_neg h0, if_neg (by omega), if_neg h0, if_neg h1, if_neg hL]
          ring
  calc ∑ i : Fin (n + 3), y_crh omega alpha beta i
      = ∑ k ∈ Finset.range (n + 3),
          (if k = 0 then 1 + omega + alpha else if k = 1 ∨ k = (n + 3) - 1 then -beta
            else 0) :=
        Fin.sum_univ_eq_sum_range (fun k =>
          (if k = 0 then 1 + omega + alpha else if k = 1 ∨ k = (n + 3) - 1 then -beta
            else 0)) (n + 3)
    _ = ∑ k ∈ Finset.range (n + 3),
          ((if k = 0 then 1 + omega + alpha else 0) + (if k = 1 then -beta else 0) +
            (if k = n + 2 then -beta else 0)) :=
        Finset.sum_congr rfl fun k _ => hpt k
    _ = 1 + omega + alpha - 2 * beta := by
        rw [Finset.sum_add_distrib, Finset.sum_add_distrib,
          Finset.sum_ite_eq' (Finset.range (n + 3)) 0 fun _ => 1 + omega + alpha,
          Finset.sum_ite_eq' (Finset.range (n + 3)) 1 fun _ => -beta,
          Finset.sum_ite_eq' (Finset.range (n + 3)) (n + 2) fun _ => -beta,
          if_pos (Finset.mem_range.mpr (by omega)),
          if_pos (Finset.mem_range.mpr (by omega)),
          if_pos (Finset.mem_range.mpr (by omega))]
        ring

/-- The sum of the first column `z_crh`. -/
theorem sum_z_crh (n : ℕ) (alpha beta : ℚ) :
    ∑ i : Fin (n + 3), z_crh alpha beta i = 1 + alpha - 2 * beta := by
  have h := sum_y_crh n 0 alpha beta
  have hzy : ∀ i : Fin (n + 3), z_crh alpha beta i = y_crh 0 alpha beta i := by
    intro i
    unfold y_crh z_crh
    have h10 : (1 + 0 + alpha : ℚ) = 1 + alpha := by ring
    rw [h10]
  rw [Finset.sum_congr rfl fun i _ => hzy i, h]
  ring

/-- C5: with zero decay coefficient (`omega = 0`) and the coefficient relation
`alpha = 2*beta` used by `main`, one ADI application preserves the total (and
hence the domain mean) of the field, for every field and every solution of the
two circulant sweeps. -/
theorem ADI_mean_conserved (n : ℕ) (beta : ℚ)
    (fld x out : Fin (n + 3) → Fin (n + 3) → ℚ)
    (h : IsADIStep (2 * beta) beta 0 (y_crh 0 (2 * beta) beta)
      (z_crh (2 * beta) beta) fld x out) :
    (∑ i, ∑ j, out i j = ∑ i, ∑ j, fld i j) ∧
    (∑ i, ∑ j, out i j) / (((n : ℚ) + 3) * ((n : ℚ) + 3)) =
      (∑ i, ∑ j, fld i j) / (((n : ℚ) + 3) * ((n : ℚ) + 3)) := by
  obtain ⟨hrow, hcol⟩ := h
  have hshift_sub : ∑ k : Fin (n + 3), (∑ i, fld (k - 1) i) = ∑ k, ∑ i, fld k i :=
    sum_shift_sub (fun k => ∑ i, fld k i) 1
  have hshift_add : ∑ k : Fin (n + 3), (∑ i, fld (k + 1) i) = ∑ k, ∑ i, fld k i :=
    sum_shift_add (fun k => ∑ i, fld k i) 1
  have hf : ∑ k, ∑ i, ADI_f (2 * beta) beta fld k i = ∑ k, ∑ i, fld k i := by
    have hrow_split : ∀ k : Fin (n + 3),
        ∑ i, ADI_f (2 * beta) beta fld k i =
          (1 - 2 * beta) * (∑ i, fld k i) + beta * (∑ i, fld (k - 1) i) +
            beta * (∑ i, fld (k + 1) i) := by
      intro k
      unfold ADI_f
      rw [Finset.sum_add_distrib, Finset.sum_add_distrib, ← Finset.mul_sum,
        ← Finset.mul_sum, ← Finset.mul_sum]
    rw [Finset.sum_congr rfl fun k _ => hrow_split k, Finset.sum_add_distrib,
      Finset.sum_add_distrib, ← Finset.mul_sum, ← Finset.mul_sum, ← Finset.mul_sum,
      hshift_sub, hshift_add]
    ring
  have hxsum : ∑ k, ∑ i, x k i = ∑ k, ∑ i, fld k i := by
    have h2 : ∀ k : Fin (n + 3),
        (∑ i : Fin (n + 3), y_crh 0 (2 * beta) beta i) * (∑ i, x k i) =
          ∑ i, ADI_f (2 * beta) beta fld k i := by
      intro k
      rw [← sum_circulantMul (N := n + 3) (y_crh 0 (2 * beta) beta) (x k)]
      exact Finset.sum_congr rfl fun i _ => hrow k i
    have h3 : (∑ i, y_crh (N := n + 3) 0 (2 * beta) beta i) * (∑ k, ∑ i, x k i) =
        ∑ k, ∑ i, ADI_f (2 * beta) beta fld k i := by
      rw [Finset.mul_sum]
      exact Finset.sum_congr rfl fun k _ => h2 k
    rw [sum_y_crh, hf] at h3
    have hone : (1 + 0 + 2 * beta - 2 * beta : ℚ) = 1 := by ring
    rw [hone, one_mul] at h3
    exact h3
  have hxshift_sub : ∑ j : Fin (n + 3), (∑ i, x i (j - 1)) = ∑ j, ∑ i, x i j :=
    sum_shift_sub (fun j => ∑ i, x i j) 1
  have hxshift_add : ∑ j : Fin (n + 3), (∑ i, x i (j + 1)) = ∑ j, ∑ i, x i j :=
    sum_shift_add (fun j => ∑ i, x i j) 1
  have hg : ∑ j, ∑ i, ADI_g (2 * beta) beta 0 x i j = ∑ j, ∑ i, x i j := by
    have hcol_split : ∀ j : Fin (n + 3),
        ∑ i, ADI_g (2 * beta) beta 0 x i j =
          (1 - 2 * beta - 0) * (∑ i, x i j) + beta * (∑ i, x i (j - 1)) +
            beta * (∑ i, x i (j + 1)) := by
      intro j
      unfold ADI_g
      rw [Finset.sum_add_distrib, Finset.sum_add_distrib, ← Finset.mul_sum,
        ← Finset.mul_sum, ← Finset.mul_sum]
    rw [Finset.sum_congr rfl fun j _ => hcol_split j, Finset.sum_add_distrib,
      Finset.sum_add_distrib, ← Finset.mul_sum, ← Finset.mul_sum, ← Finset.mul_sum,
      hxshift_sub, hxshift_add]
    ring
  have hout : ∑ j, ∑ i, out i j = ∑ j, ∑ i, x i j := by
    have h2 : ∀ j : Fin (n + 3),
        (∑ i : Fin (n + 3), z_crh (2 * beta) beta i) * (∑ i, out i j) =
          ∑ i, ADI_g (2 * beta) beta 0 x i j := by
      intro j
      rw [← sum_circulantMul (N := n + 3) (z_crh (2 * beta) beta) (fun r => out r j)]
      exact Finset.sum_congr rfl fun i _ => hcol j i
    have h3 : (∑ i, z_crh (N := n + 3) (2 * beta) beta i) * (∑ j, ∑ i, out i j) =
        ∑ j, ∑ i, ADI_g (2 * beta) beta 0 x i j := by
      rw [Finset.mul_sum]
      exact Finset.sum_congr rfl fun j _ => h2 j
    rw [sum_z_crh, hg] at h3
    have hone : (1 + 2 * beta - 2 * beta : ℚ) = 1 := by ring
    rw [hone, one_mul] at h3
    exact h3
  have hmain : ∑ i, ∑ j, out i j = ∑ i, ∑ j, fld i j := by
    rw [Finset.sum_comm]
    rw [hout]
    rw [Finset.sum_comm]
    have := hxsum
    rw [Finset.sum_comm] at this ⊢
    rw [this, Finset.sum_comm]
  exact ⟨hmain, by rw [hmain]⟩

/-- Witness for C5: a concrete non-constant 3 × 3 solve with `beta = 1/4`.
The input field has rows `(6, -1, -1)` (total 12), the intermediate sweep
yields rows `(5/2, 3/4, 3/4)`, the final field has rows `(2, 1, 1)` — the
total is again 12. -/
theorem ADI_mean_conserved_witness :
    (∑ i, ∑ j, wOut i j = ∑ i, ∑ j, wFld i j) ∧
    (∑ i, ∑ j, wOut i j) / ((((0 : ℕ) : ℚ) + 3) * (((0 : ℕ) : ℚ) + 3)) =
      (∑ i, ∑ j, wFld i j) / ((((0 : ℕ) : ℚ) + 3) * (((0 : ℕ) : ℚ) + 3)) := by
  have h := ADI_mean_conserved 0 (1/4) wFld wX wOut (by
    unfold IsADIStep
    constructor <;> intro a b <;> fin_cases a <;> fin_cases b <;>
      simp [circulantMul, circulantEntry, y_crh, z_crh, ADI_f, ADI_g, wFld, wX, wOut,
        Fin.sum_univ_three,
        show ((-2 : Fin 3) : ℕ) = 1 by decide, show ((-1 : Fin 3) : ℕ) = 2 by decide] <;>
      norm_num)
  exact h

/-- Inside the array, the reflected index is the index itself. -/
theorem reflectIdx_of_mem (len : ℕ) {t : ℤ} (h0 : 0 ≤ t) (h1 : t < (len : ℤ)) :
    reflectIdx len t = t := by
  unfold reflectIdx
  rw [if_neg (by omega), if_pos h1]

/-- The sum of the reflected array over a window shifted right by
`0 ≤ o ≤ len`: the first `len - o` terms read `v` on `[o, len)` and the last
`o` terms read the right reflection, which re-reads `v` on `[len - o, len)`. -/
theorem reflSum_of_nonneg (len : ℕ) (v : ℤ → ℚ) (o : ℤ) (h0 : 0 ≤ o)
    (h1 : o ≤ (len : ℤ)) :
    reflSum len v o =
      (∑ j ∈ Finset.Ico o (len : ℤ), v j) +
        ∑ j ∈ Finset.Ico ((len : ℤ) - o) (len : ℤ), v j := by
  unfold reflSum
  rw [← Finset.Ico_union_Ico_eq_Ico (show (0 : ℤ) ≤ (len : ℤ) - o by omega)
      (show (len : ℤ) - o ≤ (len : ℤ) by omega),
    Finset.sum_union (Finset.Ico_disjoint_Ico_consecutive 0 ((len : ℤ) - o) len)]
  congr 1
  · have hpt : ∀ i ∈ Finset.Ico (0 : ℤ) ((len : ℤ) - o),
        v (reflectIdx len (i + o)) = v (i + o) := by
      intro i hi
      rw [Finset.mem_Ico] at hi
      rw [reflectIdx_of_mem len (by omega) (by omega)]
    rw [Finset.sum_congr rfl hpt]
    have hmap : Finset.Ico o (len : ℤ) =
        (Finset.Ico (0 : ℤ) ((len : ℤ) - o)).map (addRightEmbedding o) := by
      rw [Finset.map_add_right_Ico, zero_add, sub_add_cancel]
    rw [hmap, Finset.sum_map]
    rfl
  · have hpt : ∀ i ∈ Finset.Ico ((len : ℤ) - o) (len : ℤ),
        v (reflectIdx len (i + o)) = v (2 * (len : ℤ) - 1 - (i + o)) := by
      intro i hi
      rw [Finset.mem_Ico] at hi
      unfold reflectIdx
      rw [if_neg (by omega), if_neg (by omega)]
    rw [Finset.sum_congr rfl hpt]
    refine Finset.sum_nbij' (fun i => 2 * (len : ℤ) - 1 - o - i)
      (fun j => 2 * (len : ℤ) - 1 - o - j) ?_ ?_ ?_ ?_ ?_
    · intro a ha
      rw [Finset.mem_Ico] at ha ⊢
      dsimp only
      omega
    · intro a ha
      rw [Finset.mem_Ico] at ha ⊢
      dsimp only
      omega
    · intro a _
      ring
    · intro a _
      ring
    · intro a _
      congr 1
      ring

/-- The sum of the reflected array over a window shifted left by
`0 ≤ o ≤ len`: the first `o` terms read the left reflection, which re-reads
`v` on `[0, o)`, and the remaining terms read `v` on `[0, len - o)`. -/
theorem reflSum_of_nonpos (len : ℕ) (v : ℤ → ℚ) (o : ℤ) (h0 : 0 ≤ o)
    (h1 : o ≤ (len : ℤ)) :
    reflSum len v (-o) =
      (∑ j ∈ Finset.Ico (0 : ℤ) o, v j) +
        ∑ j ∈ Finset.Ico (0 : ℤ) ((len : ℤ) - o), v j := by
  unfold reflSum
  rw [← Finset.Ico_union_Ico_eq_Ico (show (0 : ℤ) ≤ o by omega)
      (show o ≤ (len : ℤ) by omega),
    Finset.sum_union (Finset.Ico_disjoint_Ico_consecutive 0 o len)]
  congr 1
  · have hpt : ∀ i ∈ Finset.Ico (0 : ℤ) o,
        v (reflectIdx len (i + -o)) = v (o - 1 - i) := by
      intro i hi
      rw [Finset.mem_Ico] at hi
      unfold reflectIdx
      rw [if_pos (by omega)]
      congr 1
      ring
    rw [Finset.sum_congr rfl hpt]
    refine Finset.sum_nbij' (fun i => o - 1 - i) (fun j => o - 1 - j) ?_ ?_ ?_ ?_ ?_
    · intro a ha
      rw [Finset.mem_Ico] at ha ⊢
      dsimp only
      omega
    · intro a ha
      rw [Finset.mem_Ico] at ha ⊢
      dsimp only
      omega
    · intro a _
      ring
    · intro a _
      ring
    · intro a _
      rfl
  · have hpt : ∀ i ∈ Finset.Ico o (len : ℤ),
        v (reflectIdx len (i + -o)) = v (i - o) := by
      intro i hi
      rw [Finset.mem_Ico] at hi
      rw [show i + -o = i - o by ring, reflectIdx_of_mem len (by omega) (by omega)]
    rw [Finset.sum_congr rfl hpt]
    refine Finset.sum_nbij' (fun i => i - o) (fun j => j + o) ?_ ?_ ?_ ?_ ?_
    · intro a ha
      rw [Finset.mem_Ico] at ha ⊢
      dsimp only
      omega
    · intro a ha
      rw [Finset.mem_Ico] at ha ⊢
      dsimp only
      omega
    · intro a _
      ring
    · intro a _
      ring
    · intro a _
      rfl

/-- Symmetric window offsets pair up: the reflected sums at `+o` and `-o`
together count every array entry exactly twice. -/
theorem reflSum_pair (len : ℕ) (v : ℤ → ℚ) (o : ℤ) (h0 : 0 ≤ o)
    (h1 : o ≤ (len : ℤ)) :
    reflSum len v o + reflSum len v (-o) = 2 * arraySum len v := by
  rw [reflSum_of_nonneg len v o h0 h1, reflSum_of_nonpos len v o h0 h1]
  unfold arraySum
  rw [show (∑ j ∈ Finset.Ico o (len : ℤ), v j) +
        (∑ j ∈ Finset.Ico ((len : ℤ) - o) (len : ℤ), v j) +
        ((∑ j ∈ Finset.Ico (0 : ℤ) o, v j) +
          ∑ j ∈ Finset.Ico (0 : ℤ) ((len : ℤ) - o), v j) =
      ((∑ j ∈ Finset.Ico (0 : ℤ) o, v j) + ∑ j ∈ Finset.Ico o (len : ℤ), v j) +
        ((∑ j ∈ Finset.Ico (0 : ℤ) ((len : ℤ) - o), v j) +
          ∑ j ∈ Finset.Ico ((len : ℤ) - o) (len : ℤ), v j) from by ring]
  rw [← Finset.sum_union (Finset.Ico_disjoint_Ico_consecutive 0 o len),
    Finset.Ico_union_Ico_eq_Ico (by omega) (by omega),
    ← Finset.sum_union (Finset.Ico_disjoint_Ico_consecutive 0 ((len : ℤ) - o) len),
    Finset.Ico_union_Ico_eq_Ico (by omega) (by omega)]
  ring

/-- The window of `2m+1` reflected sums centred at 0 totals `2m+1` copies of
the array sum. -/
theorem reflSum_window (len : ℕ) (v : ℤ → ℚ) :
    ∀ m : ℕ, m ≤ len →
      ∑ t ∈ Finset.range (2 * m + 1), reflSum len v ((t : ℤ) - (m : ℤ)) =
        ((2 * m + 1 : ℕ) : ℚ) * arraySum len v := by
  intro m
  induction m with
  | zero =>
    intro _
    rw [Finset.sum_range_one]
    have h0 : ((0 : ℕ) : ℤ) - ((0 : ℕ) : ℤ) = 0 := by norm_num
    rw [h0]
    have : reflSum len v 0 = arraySum len v := by
      unfold reflSum arraySum
      refine Finset.sum_congr rfl fun i hi => ?_
      rw [Finset.mem_Ico] at hi
      rw [add_zero, reflectIdx_of_mem len (by omega) (by omega)]
    rw [this]
    norm_num
  | succ m ih =>
    intro hm
    have hmle : m ≤ len := by omega
    rw [show 2 * (m + 1) + 1 = (2 * m + 1 + 1) + 1 from by ring,
      Finset.sum_range_succ, Finset.sum_range_succ']
    have hshift : ∀ t : ℕ,
        reflSum len v (((t + 1 : ℕ) : ℤ) - ((m + 1 : ℕ) : ℤ)) =
          reflSum len v ((t : ℤ) - (m : ℤ)) := by
      intro t
      congr 1
      push_cast
      ring
    rw [Finset.sum_congr rfl fun t _ => hshift t, ih hmle]
    have hlast : ((2 * m + 1 + 1 : ℕ) : ℤ) - ((m + 1 : ℕ) : ℤ) = ((m + 1 : ℕ) : ℤ) := by
      push_cast
      ring
    have hzero : ((0 : ℕ) : ℤ) - ((m + 1 : ℕ) : ℤ) = -((m + 1 : ℕ) : ℤ) := by
      push_cast
      ring
    rw [hlast, hzero]
    have hpair := reflSum_pair len v ((m + 1 : ℕ) : ℤ) (by positivity)
      (by exact_mod_cast hm)
    push_cast
    push_cast at hpair
    linarith

/-- C9 (amended): when the smoothing window `Nsmth` is odd (and no longer
than the run), the moving-average smoothing with reflected boundaries
preserves the scheduled total exactly, so the smoothed schedule still sums to
the requested total; for even windows the boundary reflection can change the
total (see the counterexample). -/
theorem smoothed_schedule_sum (len m : ℕ) (hm : m ≤ len) (v : ℤ → ℚ) :
    arraySum len (uniformFilter1d len (2 * m + 1) v) = arraySum len v := by
  unfold arraySum uniformFilter1d
  have hdiv : (2 * m + 1) / 2 = m := by omega
  rw [hdiv, ← Finset.sum_div, Finset.sum_comm]
  have hsw : ∀ t ∈ Finset.range (2 * m + 1),
      (∑ i ∈ Finset.Ico (0 : ℤ) (len : ℤ), v (reflectIdx len (i + (t : ℤ) - (m : ℤ)))) =
        reflSum len v ((t : ℤ) - (m : ℤ)) := by
    intro t _
    unfold reflSum
    refine Finset.sum_congr rfl fun i _ => ?_
    congr 2
    ring
  rw [Finset.sum_congr rfl hsw, reflSum_window len v m hm]
  have hne : ((2 * m + 1 : ℕ) : ℚ) ≠ 0 := Nat.cast_ne_zero.mpr (by omega)
  rw [mul_div_cancel_left₀ _ hne]
  rfl

/-- Witness for C9: window `Nsmth = 3` (`m = 1`) on a run of 4 steps with a
spike of 7 events at step 1. -/
theorem smoothed_schedule_sum_witness :
    arraySum 4 (uniformFilter1d 4 (2 * 1 + 1) (fun t => if t = 1 then (7 : ℚ) else 0)) =
      arraySum 4 (fun t => if t = 1 then (7 : ℚ) else 0) :=
  smoothed_schedule_sum 4 1 (by omega) (fun t => if t = 1 then (7 : ℚ) else 0)

/-- C9 as stated is false for even smoothing windows (the default
configuration has `Nsmth = cnv_lifetime/dt = 1800/30 = 60, even`): with a run
of 4 steps, window 2, and the draw putting all 100 scheduled events at step 0,
the reflected moving average sums to 150, not the requested 100. -/
theorem smoothed_schedule_claim_false :
    arraySum 4 (fun t => if t = 0 then (100 : ℚ) else 0) = 100 ∧
    arraySum 4 (uniformFilter1d 4 2 (fun t => if t = 0 then (100 : ℚ) else 0)) = 150 := by
  have hico : Finset.Ico (0 : ℤ) ((4 : ℕ) : ℤ) = {0, 1, 2, 3} := by decide
  constructor
  · unfold arraySum
    rw [hico, Finset.sum_insert (by decide), Finset.sum_insert (by decide),
      Finset.sum_insert (by decide), Finset.sum_singleton]
    norm_num
  · unfold arraySum uniformFilter1d
    rw [hico, Finset.sum_insert (by decide), Finset.sum_insert (by decide),
      Finset.sum_insert (by decide), Finset.sum_singleton]
    norm_num [Finset.sum_range_succ, Finset.sum_range_one, reflectIdx]



end ToyDiffusion
